import Mathlib

/-!
Verification of the degenter-api price/valuation core.

Numeric values are modelled as exact rationals (`ℚ`): the TypeScript source
computes with IEEE doubles, and every claim under study is about the exact
arithmetic the formulas denote, with explicit guards for the zero/negative
cases; `Number.isFinite` checks on values that are always finite in exact
arithmetic are modelled as always true. Strings are modelled as Lean strings
with character-level lowering, matching the per-character `toLowerCase` /
`ILIKE` behaviour on the ASCII inputs the service handles.
-/

namespace Degenter

/-- Result of `simulateXYK`: simulated output amount, effective execution
price (ZIG per token) and signed price impact. -/
structure SimResult where
  out : ℚ
  price : ℚ
  impact : ℚ
  deriving Repr, DecidableEq

/-- The `1e-18` clamp the source applies before dividing by a simulated
output (`Math.max(outToken, 1e-18)`). -/
def epsOut : ℚ := 1 / 10 ^ 18

/-- Embedding of `TokensService.simulateXYK` / `SwapService.simulateXYK`
(`src/api/tokens/tokens.service.ts:211`, `src/unnamed/part_008:55`). -/
def simulateXYK (fromIsZig : Bool) (amountIn Rz Rt fee : ℚ) : SimResult :=
  if ¬(0 < Rz ∧ 0 < Rt) ∨ ¬(0 < amountIn) then ⟨0, 0, 0⟩
  else
    let mid := Rz / Rt
    let xin := amountIn * (1 - fee)
    if fromIsZig then
      let outToken := xin * Rt / (Rz + xin)
      let effZigPerToken := amountIn / max outToken epsOut
      let impact := if 0 < mid then effZigPerToken / mid - 1 else 0
      ⟨outToken, effZigPerToken, impact⟩
    else
      let outZig := xin * Rz / (Rt + xin)
      let effZigPerToken := outZig / amountIn
      let impact := if 0 < mid then mid / max effZigPerToken epsOut - 1 else 0
      ⟨outZig, effZigPerToken, impact⟩

end Degenter

namespace Degenter

/-- C1: the swap simulator returns the all-zero result whenever a reserve or
the input amount is non-positive, and for positive reserves, positive input
and any fee in `[0,1)` the simulated output never exceeds the reserve of the
output-side asset (`Rt` when swapping native→token, `Rz` token→native). -/
theorem simulateXYK_guard_and_conservation
    (fromIsZig : Bool) (amountIn Rz Rt fee : ℚ) :
    ((¬(0 < Rz ∧ 0 < Rt) ∨ ¬(0 < amountIn)) →
      simulateXYK fromIsZig amountIn Rz Rt fee = ⟨0, 0, 0⟩) ∧
    (0 < Rz → 0 < Rt → 0 < amountIn → 0 ≤ fee → fee < 1 →
      (simulateXYK true amountIn Rz Rt fee).out ≤ Rt ∧
      (simulateXYK false amountIn Rz Rt fee).out ≤ Rz) := by
  constructor
  · intro h
    simp only [simulateXYK]
    rw [if_pos]
    rcases h with h | h
    · exact Or.inl h
    · exact Or.inr h
  · intro hRz hRt hIn hf0 hf1
    have hxin : 0 < amountIn * (1 - fee) := by nlinarith
    have hguard : ¬(¬(0 < Rz ∧ 0 < Rt) ∨ ¬(0 < amountIn)) := by
      push_neg; exact ⟨⟨hRz, hRt⟩, hIn⟩
    constructor
    · simp only [simulateXYK, if_neg hguard, if_true]
      rw [div_le_iff₀ (by linarith)]
      nlinarith
    · simp only [simulateXYK, if_neg hguard, Bool.false_eq_true, if_false]
      rw [div_le_iff₀ (by linarith)]
      nlinarith

/-- Witness for C1 at concrete inputs. -/
theorem simulateXYK_guard_and_conservation_witness :
    (simulateXYK true (-1) 5 7 0 = ⟨0, 0, 0⟩) ∧
    (simulateXYK true 3 5 7 (3/1000)).out ≤ 7 ∧
    (simulateXYK false 3 5 7 (3/1000)).out ≤ 5 := by
  refine ⟨?_, ?_, ?_⟩
  · exact (simulateXYK_guard_and_conservation true (-1) 5 7 0).1 (by norm_num)
  · exact ((simulateXYK_guard_and_conservation true 3 5 7 (3/1000)).2
      (by norm_num) (by norm_num) (by norm_num) (by norm_num) (by norm_num)).1
  · exact ((simulateXYK_guard_and_conservation false 3 5 7 (3/1000)).2
      (by norm_num) (by norm_num) (by norm_num) (by norm_num) (by norm_num)).2

end Degenter

namespace Degenter

/-- Per-character ASCII lowering of a string, the behaviour of
`String(x).toLowerCase()` on the ASCII identifiers the service compares. -/
def lowerStr (s : String) : List Char := s.data.map Char.toLower

/-- Longest leading run of decimal digits, the greedy `(\d+)` capture. -/
def leadingDigits : List Char → List Char
  | [] => []
  | c :: cs => if c.isDigit then c :: leadingDigits cs else []

/-- Decimal value of a digit list, the `Number(m[1])` conversion (exact; a
digit-only capture is never `NaN`, and `Number.isFinite` holds for it in
exact arithmetic). -/
def parseDigits (l : List Char) : ℕ :=
  l.foldl (fun acc c => acc * 10 + (c.toNat - '0'.toNat)) 0

/-- First-match scan of the unanchored regex `xyk[_-](\d+)`: at each
position, match literal `xyk`, a `_` or `-` separator, then at least one
digit; on success return the value of the greedy digit capture, otherwise
advance one character. -/
def findXykBps : List Char → Option ℕ
  | [] => none
  | c :: rest =>
    match c, rest with
    | 'x', 'y' :: 'k' :: s :: d :: r =>
      if (s = '_' ∨ s = '-') ∧ d.isDigit then some (parseDigits (leadingDigits (d :: r)))
      else findXykBps rest
    | _, _ => findXykBps rest

/-- Embedding of `TokensService.pairFee` / `SwapService.pairFee`
(`src/api/tokens/tokens.service.ts:198`, `src/unnamed/part_008:42`); the
`if (!pairType)` falsy guard covers both `null` and the empty string. -/
def pairFee (pairType : Option String) : ℚ :=
  match pairType with
  | Option.none => 3 / 1000
  | Option.some s =>
    if s = "" then 3 / 1000
    else
      let t := lowerStr s
      if t = "xyk".data then 1 / 10000
      else if t = "concentrated".data then 1 / 100
      else
        match findXykBps t with
        | Option.some bps => (bps : ℚ) / 10000
        | Option.none => 3 / 1000

end Degenter

namespace Degenter

/-- ASCII lowering fixes decimal digits. -/
theorem toLower_of_isDigit (c : Char) (h : c.isDigit = true) : c.toLower = c := by
  simp only [Char.isDigit, ge_iff_le, Bool.and_eq_true, decide_eq_true_eq] at h
  have h57 : c.val.toNat ≤ 57 := h.2
  simp only [Char.toLower, Char.toNat]
  rw [if_neg]
  omega

/-- The greedy digit capture takes a fully-digit list whole. -/
theorem leadingDigits_of_all (ds : List Char) (h : ∀ c ∈ ds, c.isDigit = true) :
    leadingDigits ds = ds := by
  induction ds with
  | nil => rfl
  | cons c cs ih =>
    simp only [leadingDigits, if_pos (h c (List.mem_cons_self c cs))]
    rw [ih (fun x hx => h x (List.mem_cons_of_mem c hx))]

/-- Lowering a `xyk<sep><digits>` string is the identity. -/
theorem lowerStr_digits (sep : Char) (hsep : sep.toLower = sep)
    (ds : List Char) (h : ∀ c ∈ ds, c.isDigit = true) :
    lowerStr (String.mk ('x' :: 'y' :: 'k' :: sep :: ds)) = 'x' :: 'y' :: 'k' :: sep :: ds := by
  simp only [lowerStr, List.map_cons, hsep]
  norm_num
  constructor
  · rfl
  constructor
  · rfl
  constructor
  · rfl
  exact List.map_congr_left (fun c hc => toLower_of_isDigit c (h c hc)) |>.trans (List.map_id ds)

/-- A whole-string `xyk<sep><digits>` pair type is priced at its captured
basis points over 10000. -/
theorem pairFee_pattern (sep : Char) (hsep : sep = '_' ∨ sep = '-')
    (ds : List Char) (hne : ds ≠ []) (h : ∀ c ∈ ds, c.isDigit = true) :
    pairFee (Option.some (String.mk ('x' :: 'y' :: 'k' :: sep :: ds))) =
      (parseDigits ds : ℚ) / 10000 := by
  have hsep' : sep.toLower = sep := by rcases hsep with h | h <;> subst h <;> rfl
  obtain ⟨d, r, rfl⟩ : ∃ d r, ds = d :: r := by
    cases ds with
    | nil => exact absurd rfl hne
    | cons d r => exact ⟨d, r, rfl⟩
  have hlow := lowerStr_digits sep hsep' (d :: r) h
  simp only [pairFee]
  rw [if_neg (by simp [String.ext_iff])]
  rw [hlow]
  rw [if_neg (by simp), if_neg (by rcases hsep with h | h <;> subst h <;> simp)]
  have hfind : findXykBps ('x' :: 'y' :: 'k' :: sep :: d :: r) =
      some (parseDigits (leadingDigits (d :: r))) := by
    simp only [findXykBps]
    rw [if_pos ⟨hsep, h d (by simp)⟩]
  rw [hfind, leadingDigits_of_all _ h]

/-- C3: the fee schedule returns 0.0001 for `"xyk"`, 0.01 for
`"concentrated"`, `n` basis points (`n/10000`) for a `xyk_<n>` or `xyk-<n>`
pair type (so `pairFee "xyk_50" = 0.005`), and the 0.003 default for
null/absent and unrecognized pair types such as `"unknown"`. -/
theorem pairFee_schedule :
    pairFee (Option.some "xyk") = 1 / 10000 ∧
    pairFee (Option.some "concentrated") = 1 / 100 ∧
    pairFee (Option.some "xyk_50") = 5 / 1000 ∧
    pairFee Option.none = 3 / 1000 ∧
    pairFee (Option.some "unknown") = 3 / 1000 ∧
    (∀ ds : List Char, ds ≠ [] → (∀ c ∈ ds, c.isDigit = true) →
      pairFee (Option.some (String.mk ('x' :: 'y' :: 'k' :: '_' :: ds))) =
        (parseDigits ds : ℚ) / 10000 ∧
      pairFee (Option.some (String.mk ('x' :: 'y' :: 'k' :: '-' :: ds))) =
        (parseDigits ds : ℚ) / 10000) := by
  refine ⟨by rfl, by rfl, ?_, by rfl, by rfl, ?_⟩
  · rw [show pairFee (Option.some "xyk_50") = (50 : ℚ) / 10000 from rfl]
    norm_num
  · intro ds hne h
    exact ⟨pairFee_pattern '_' (Or.inl rfl) ds hne h,
           pairFee_pattern '-' (Or.inr rfl) ds hne h⟩

/-- Witness for C3's universal pattern clause at the digit list `['7']`. -/
theorem pairFee_schedule_witness :
    pairFee (Option.some (String.mk ['x', 'y', 'k', '-', '7'])) =
      (parseDigits ['7'] : ℚ) / 10000 :=
  (pairFee_schedule.2.2.2.2.2 ['7'] (by simp) (by decide)).2

end Degenter

namespace Degenter

/-- The output clamp is positive. -/
theorem epsOut_pos : 0 < epsOut := by norm_num [epsOut]

/-- The clamped execution price of a native→token simulation is strictly
increasing in the input amount, for fixed positive reserves and fee below 1. -/
theorem eff_lt_eff (Rz Rt fee a1 a2 : ℚ) (hRz : 0 < Rz) (hRt : 0 < Rt)
    (hf1 : fee < 1) (h1 : 0 < a1) (h12 : a1 < a2) :
    a1 / max (a1 * (1 - fee) * Rt / (Rz + a1 * (1 - fee))) epsOut <
    a2 / max (a2 * (1 - fee) * Rt / (Rz + a2 * (1 - fee))) epsOut := by
  set c := 1 - fee with hc
  have hcpos : 0 < c := by rw [hc]; linarith
  have h2 : 0 < a2 := lt_trans h1 h12
  have hden1 : 0 < Rz + a1 * c := by nlinarith
  have hden2 : 0 < Rz + a2 * c := by nlinarith
  have hg1pos : 0 < a1 * c * Rt / (Rz + a1 * c) := by positivity
  have hg2pos : 0 < a2 * c * Rt / (Rz + a2 * c) := by positivity
  have hgmono : a1 * c * Rt / (Rz + a1 * c) < a2 * c * Rt / (Rz + a2 * c) := by
    rw [div_lt_div_iff₀ hden1 hden2]
    nlinarith [mul_pos (mul_pos (mul_pos (sub_pos.mpr h12) hcpos) hRt) hRz]
  have hK1 : a1 / (a1 * c * Rt / (Rz + a1 * c)) = (Rz + a1 * c) / (c * Rt) := by
    rw [div_div_eq_mul_div, show a1 * c * Rt = a1 * (c * Rt) by ring]
    exact mul_div_mul_left _ _ (ne_of_gt h1)
  have hK2 : a2 / (a2 * c * Rt / (Rz + a2 * c)) = (Rz + a2 * c) / (c * Rt) := by
    rw [div_div_eq_mul_div, show a2 * c * Rt = a2 * (c * Rt) by ring]
    exact mul_div_mul_left _ _ (ne_of_gt h2)
  have hKmono : (Rz + a1 * c) / (c * Rt) < (Rz + a2 * c) / (c * Rt) := by gcongr
  rcases le_or_lt (a2 * c * Rt / (Rz + a2 * c)) epsOut with h2le | h2gt
  · have h1le : a1 * c * Rt / (Rz + a1 * c) ≤ epsOut := le_of_lt (lt_of_lt_of_le hgmono h2le)
    rw [max_eq_right h1le, max_eq_right h2le]
    gcongr
    exact epsOut_pos
  · rw [max_eq_left (le_of_lt h2gt), hK2]
    rcases le_or_lt (a1 * c * Rt / (Rz + a1 * c)) epsOut with h1le | h1gt
    · rw [max_eq_right h1le]
      calc a1 / epsOut ≤ a1 / (a1 * c * Rt / (Rz + a1 * c)) := by gcongr
        _ = (Rz + a1 * c) / (c * Rt) := hK1
        _ < (Rz + a2 * c) / (c * Rt) := hKmono
    · rw [max_eq_left (le_of_lt h1gt), hK1]
      exact hKmono

/-- Closed form of the native→token impact for in-range inputs. -/
theorem simulateXYK_impact_eq (a Rz Rt fee : ℚ) (hRz : 0 < Rz) (hRt : 0 < Rt) (ha : 0 < a) :
    (simulateXYK true a Rz Rt fee).impact =
      (a / max (a * (1 - fee) * Rt / (Rz + a * (1 - fee))) epsOut) / (Rz / Rt) - 1 := by
  have hguard : ¬(¬(0 < Rz ∧ 0 < Rt) ∨ ¬(0 < a)) := by
    push_neg; exact ⟨⟨hRz, hRt⟩, ha⟩
  have hmid : 0 < Rz / Rt := div_pos hRz hRt
  simp only [simulateXYK, if_neg hguard, if_true, if_pos hmid]

/-- C2 (amended): for fixed positive reserves and fee in `[0,1)`, the
native→token impact is strictly increasing in `amountIn`; but as
`amountIn → 0⁺` the impact tends to −1, not to 0, because the `1e-18`
output clamp collapses the execution price for tiny inputs. -/
theorem simulateXYK_impact_mono_and_limit (Rz Rt fee : ℚ)
    (hRz : 0 < Rz) (hRt : 0 < Rt) (hf0 : 0 ≤ fee) (hf1 : fee < 1) :
    (∀ a1 a2 : ℚ, 0 < a1 → a1 < a2 →
      (simulateXYK true a1 Rz Rt fee).impact < (simulateXYK true a2 Rz Rt fee).impact) ∧
    (∀ q : ℚ, 0 < q → ∃ d : ℚ, 0 < d ∧ ∀ a : ℚ, 0 < a → a < d →
      |(simulateXYK true a Rz Rt fee).impact + 1| < q) := by
  have hmid : 0 < Rz / Rt := div_pos hRz hRt
  constructor
  · intro a1 a2 h1 h12
    rw [simulateXYK_impact_eq a1 Rz Rt fee hRz hRt h1,
        simulateXYK_impact_eq a2 Rz Rt fee hRz hRt (lt_trans h1 h12)]
    have := eff_lt_eff Rz Rt fee a1 a2 hRz hRt hf1 h1 h12
    gcongr
  · intro q hq
    refine ⟨min (epsOut * Rz / Rt) (q * epsOut * Rz / Rt),
      lt_min (div_pos (mul_pos epsOut_pos hRz) hRt)
        (div_pos (mul_pos (mul_pos hq epsOut_pos) hRz) hRt), ?_⟩
    intro a ha had
    have hc1 : 0 < 1 - fee := by linarith
    have haq : a < q * epsOut * Rz / Rt := lt_of_lt_of_le had (min_le_right _ _)
    have haε : a < epsOut * Rz / Rt := lt_of_lt_of_le had (min_le_left _ _)
    have haε' : a * Rt < epsOut * Rz := (lt_div_iff₀ hRt).mp haε
    have hd : 0 < Rz + a * (1 - fee) := by nlinarith [mul_pos ha hc1]
    have hclamp : a * (1 - fee) * Rt / (Rz + a * (1 - fee)) ≤ epsOut := by
      rw [div_le_iff₀ hd]
      nlinarith [mul_nonneg (mul_nonneg (le_of_lt ha) hf0) (le_of_lt hRt),
        mul_nonneg (le_of_lt epsOut_pos) (mul_nonneg (le_of_lt ha) (le_of_lt hc1))]
    rw [simulateXYK_impact_eq a Rz Rt fee hRz hRt ha, max_eq_right hclamp]
    rw [show a / epsOut / (Rz / Rt) - 1 + 1 = a / epsOut / (Rz / Rt) by ring]
    rw [abs_of_pos (div_pos (div_pos ha epsOut_pos) hmid)]
    rw [div_lt_iff₀ hmid, div_lt_iff₀ epsOut_pos]
    calc a < q * epsOut * Rz / Rt := haq
      _ = q * (Rz / Rt) * epsOut := by ring

/-- Witness for C2's amended theorem: with unit reserves and zero fee, the
impact at `amountIn = 1` is strictly below the impact at `amountIn = 2`. -/
theorem simulateXYK_impact_mono_witness :
    (simulateXYK true 1 1 1 0).impact < (simulateXYK true 2 1 1 0).impact :=
  (simulateXYK_impact_mono_and_limit 1 1 0 one_pos one_pos le_rfl one_pos).1
    1 2 one_pos one_lt_two

/-- Counterexample to C2 as stated: even with unit reserves and zero fee,
the impact does not tend to 0 as `amountIn → 0⁺` (inputs below the clamp
threshold have impact near −1). -/
theorem simulateXYK_impact_not_to_zero :
    ¬ (∀ q : ℚ, 0 < q → ∃ d : ℚ, 0 < d ∧ ∀ a : ℚ, 0 < a → a < d →
        |(simulateXYK true a 1 1 0).impact| < q) := by
  intro hcl
  obtain ⟨d, hd, hall⟩ := hcl (1/2) (by norm_num)
  have ha0 : 0 < min (d/2) (1/10^19 : ℚ) := lt_min (by linarith) (by norm_num)
  have had : min (d/2) (1/10^19 : ℚ) < d := lt_of_le_of_lt (min_le_left _ _) (by linarith)
  set a := min (d/2) (1/10^19 : ℚ) with ha
  have hsmall : a ≤ 1/10^19 := min_le_right _ _
  have himp := hall a ha0 had
  rw [simulateXYK_impact_eq a 1 1 0 one_pos one_pos ha0] at himp
  have hclamp : a * (1 - 0) * 1 / (1 + a * (1 - 0)) ≤ epsOut := by
    rw [div_le_iff₀ (by linarith)]
    rw [epsOut]
    nlinarith
  rw [max_eq_right hclamp] at himp
  have key : a / epsOut / ((1:ℚ)/1) = a * 10^18 := by
    rw [epsOut]
    field_simp
  rw [key] at himp
  have hsc : a * 10^18 ≤ 1/10 := by linarith
  rw [abs_of_neg (by linarith)] at himp
  linarith

end Degenter

namespace Degenter

/-- An OHLCV output bar: bucket timestamp (epoch seconds), open, high, low,
close, volume and trade count. `open` is a Lean keyword, hence `open_`. -/
structure Bar where
  ts : ℤ
  open_ : ℚ
  high : ℚ
  low : ℚ
  close : ℚ
  volume : ℚ
  trades : ℚ
  deriving Repr, DecidableEq

/-- The zero-guarded reciprocal `v => (v > 0 ? 1 / v : 0)` used by the OHLCV
inversion (`src/api/tokens/tokens.service.ts:1685`, `:1440`). -/
def invertQ (v : ℚ) : ℚ := if 0 < v then 1 / v else 0

/-- The OHLCV inversion transform: each value is replaced by its guarded
reciprocal, with the new high taken from the old low and the new low from
the old high (`src/api/tokens/tokens.service.ts:1686`). -/
def invertBar (b : Bar) : Bar :=
  { b with
    open_ := invertQ b.open_
    close := invertQ b.close
    high := invertQ b.low
    low := invertQ b.high }

/-- Guarded reciprocal is an involution on positive values. -/
theorem invertQ_invertQ (v : ℚ) (hv : 0 < v) : invertQ (invertQ v) = v := by
  have h1 : invertQ v = 1 / v := by rw [invertQ, if_pos hv]
  rw [h1, invertQ, if_pos (by positivity), one_div_one_div]

/-- C6: the inversion transform maps high to `invert(oldLow)` and low to
`invert(oldHigh)`, and applying it twice to a bar with strictly positive
open/high/low/close returns the original bar (exactly, in exact
arithmetic). -/
theorem invertBar_involution (b : Bar)
    (ho : 0 < b.open_) (hh : 0 < b.high) (hl : 0 < b.low) (hc : 0 < b.close) :
    (invertBar b).high = invertQ b.low ∧
    (invertBar b).low = invertQ b.high ∧
    invertBar (invertBar b) = b := by
  refine ⟨rfl, rfl, ?_⟩
  cases b with
  | mk ts o h l c v t =>
    simp only [invertBar, Bar.mk.injEq]
    exact ⟨trivial, invertQ_invertQ o ho, invertQ_invertQ h hh, invertQ_invertQ l hl,
      invertQ_invertQ c hc, trivial, trivial⟩

/-- Witness for C6 at a concrete positive bar. -/
theorem invertBar_involution_witness :
    invertBar (invertBar ⟨0, 2, 3, 1, 2, 5, 1⟩) = (⟨0, 2, 3, 1, 2, 5, 1⟩ : Bar) :=
  (invertBar_involution ⟨0, 2, 3, 1, 2, 5, 1⟩
    (by norm_num) (by norm_num) (by norm_num) (by norm_num)).2.2

end Degenter

namespace Degenter

/-- JS truthiness for an optional string: `null`/`undefined` and the empty
string are falsy. -/
def truthyStr : Option String → Option String
  | Option.none => Option.none
  | Option.some s => if s = "" then Option.none else Option.some s

/-- Whether a string, lower-cased, is one of the two native-currency
aliases. -/
def isAlias (s : String) : Bool :=
  decide (lowerStr s = "uzig".data ∨ lowerStr s = "zig".data)

/-- Embedding of `isUzigToken` for a token record
(`src/api/tokens/tokens.service.ts:54`,
`src/api/trades/dto/trades-common.dto.ts:107`): the raw value is
`tok?.denom || tok?.symbol || ''` (first truthy), lower-cased, compared to
the aliases. -/
def isUzigToken (denom symbol : Option String) : Bool :=
  let raw :=
    match truthyStr denom with
    | Option.some d => d
    | Option.none =>
      match truthyStr symbol with
      | Option.some s => s
      | Option.none => ""
  decide (lowerStr raw = "uzig".data ∨ lowerStr raw = "zig".data)

/-- The claim's reading of the native-currency test: true iff the denom or
the symbol, lower-cased, equals one of the aliases. -/
def isNativeCurrencySpec (denom symbol : Option String) : Bool :=
  (Option.map isAlias denom).getD false || (Option.map isAlias symbol).getD false

/-- Counterexample to C8 as stated: a token whose denom is `"ibc/x"` and
whose symbol is `"ZIG"` is not recognized by the code (the truthy denom
short-circuits the `||` chain and the symbol is never consulted), although
the claim's disjunctive reading recognizes it. -/
theorem isUzigToken_symbol_counterexample :
    isUzigToken (Option.some "ibc/x") (Option.some "ZIG") = false ∧
    isNativeCurrencySpec (Option.some "ibc/x") (Option.some "ZIG") = true := by
  constructor <;> rfl

/-- C8 (amended): the native-currency test inspects only the first truthy
of (denom, symbol): with a non-empty denom it is equivalent to the denom
alias test alone, and only with a null/empty denom does it fall back to the
symbol alias test. -/
theorem isUzigToken_first_truthy (denom symbol : Option String) :
    (∀ d, denom = Option.some d → d ≠ "" → isUzigToken denom symbol = isAlias d) ∧
    ((denom = Option.none ∨ denom = Option.some "") →
      isUzigToken denom symbol = (Option.map isAlias symbol).getD false) := by
  constructor
  · rintro d rfl hd
    simp only [isUzigToken, truthyStr, if_neg hd]
    rfl
  · intro hden
    have hnone : truthyStr denom = Option.none := by
      rcases hden with rfl | rfl
      · rfl
      · simp [truthyStr]
    cases symbol with
    | none =>
      simp only [isUzigToken]
      rw [hnone]
      rfl
    | some s =>
      by_cases hs : s = ""
      · subst hs
        simp only [isUzigToken]
        rw [hnone]
        rfl
      · simp only [isUzigToken]
        rw [hnone]
        simp only [truthyStr, if_neg hs]
        rfl

/-- Witness for C8's amended theorem at a concrete token. -/
theorem isUzigToken_first_truthy_witness :
    isUzigToken (Option.some "ibc/x") (Option.some "ZIG") = isAlias "ibc/x" ∧
    isUzigToken Option.none (Option.some "ZIG") =
      (Option.map isAlias (Option.some "ZIG")).getD false := by
  constructor
  · exact (isUzigToken_first_truthy (Option.some "ibc/x") (Option.some "ZIG")).1
      "ibc/x" rfl (by simp)
  · exact (isUzigToken_first_truthy Option.none (Option.some "ZIG")).2 (Or.inl rfl)

end Degenter

namespace Degenter

/-- Trade size classification buckets. -/
inductive TradeClass
  | shrimp
  | shark
  | whale
  deriving Repr, DecidableEq

/-- The requested valuation unit for trade listings. -/
inductive TradeUnit
  | usd
  | zig
  deriving Repr, DecidableEq

/-- Embedding of `TradesService.classifyByThreshold`
(`src/api/trades/dto/trades-common.dto.ts:279`). -/
def classifyByThreshold (x : ℚ) : TradeClass :=
  if x < 1000 then TradeClass.shrimp
  else if x ≤ 10000 then TradeClass.shark
  else TradeClass.whale

/-- The `zigLegAmount` field of a shaped trade
(`src/api/trades/dto/trades-common.dto.ts:239`): the scaled offer amount if
the offer leg is denominated in `uzig`, else the scaled ask amount if the
ask leg is, else null. -/
def zigLegAmount (offerDenom askDenom : String) (offerScaled askScaled : Option ℚ) :
    Option ℚ :=
  if offerDenom = "uzig" ∧ offerScaled ≠ Option.none then offerScaled
  else if askDenom = "uzig" ∧ askScaled ≠ Option.none then askScaled
  else Option.none

/-- Embedding of `TradesService.worthForClass`
(`src/api/trades/dto/trades-common.dto.ts:273`): the basis is the shaped
trade's `zigLegAmount` when non-null, else its `valueNative`; a null basis
yields null; a USD request multiplies by the trade-time exchange rate,
falling back to the live rate. -/
def worthForClass (zigLeg valueNative : Option ℚ) (unit : TradeUnit)
    (fxAtTrade : Option ℚ) (zigUsd : ℚ) : Option ℚ :=
  let zigBasis :=
    match zigLeg with
    | Option.some v => Option.some v
    | Option.none => valueNative
  match zigBasis with
  | Option.none => Option.none
  | Option.some zb =>
    let fx := fxAtTrade.getD zigUsd
    Option.some (if unit = TradeUnit.usd then zb * fx else zb)

/-- The `class` field: classification of the worth when one exists, null
otherwise (`src/api/trades/dto/trades-common.dto.ts:401`). -/
def classOf (w : Option ℚ) : Option TradeClass := Option.map classifyByThreshold w

/-- C9: classification boundaries (999.99 shrimp; 1000 and 10000 shark;
10000.01 whale); the worth basis prefers the trade's own native-currency
leg (`zigLegAmount`, filled from whichever leg is denominated in the
native currency) and falls back to `valueNative`; a null basis yields no
classification. -/
theorem tradeClass_boundaries_and_worth :
    classifyByThreshold (99999/100) = TradeClass.shrimp ∧
    classifyByThreshold 1000 = TradeClass.shark ∧
    classifyByThreshold 10000 = TradeClass.shark ∧
    classifyByThreshold (1000001/100) = TradeClass.whale ∧
    (∀ (v : ℚ) (vn : Option ℚ) (u : TradeUnit) (fx : Option ℚ) (zu : ℚ),
      worthForClass (Option.some v) vn u fx zu =
        Option.some (if u = TradeUnit.usd then v * fx.getD zu else v)) ∧
    (∀ (vn : Option ℚ) (u : TradeUnit) (fx : Option ℚ) (zu : ℚ),
      worthForClass Option.none vn u fx zu =
        Option.map (fun zb => if u = TradeUnit.usd then zb * fx.getD zu else zb) vn) ∧
    (∀ (os asq : Option ℚ) (ad : String),
      zigLegAmount "uzig" ad os asq =
        (if os ≠ Option.none then os
         else if ad = "uzig" ∧ asq ≠ Option.none then asq else Option.none)) ∧
    classOf Option.none = Option.none := by
  refine ⟨?_, ?_, ?_, ?_, ?_, ?_, ?_, rfl⟩
  · norm_num [classifyByThreshold]
  · norm_num [classifyByThreshold]
  · norm_num [classifyByThreshold]
  · norm_num [classifyByThreshold]
  · intro v vn u fx zu
    rfl
  · intro vn u fx zu
    cases vn <;> rfl
  · intro os asq ad
    by_cases hos : os = Option.none
    · subst hos
      simp [zigLegAmount]
    · simp [zigLegAmount, hos]

end Degenter

namespace Degenter

/-- Embedding of `TokensService.changePctForMinutes`
(`src/api/tokens/tokens.service.ts:304`) on the two closes its SQL query
returns: the JS falsy guard `!lastRaw || !prevRaw` maps null and 0 closes
to null; with `invert` both closes are reciprocated before the percentage
is computed, and a zero post-inversion previous close also yields null.
`Number.isFinite` holds for every exact rational, so it is modelled as
true. -/
def changePctForMinutes (lastRaw prevRaw : Option ℚ) (invert : Bool) : Option ℚ :=
  match lastRaw, prevRaw with
  | Option.some l, Option.some p =>
    if l = 0 ∨ p = 0 then Option.none
    else
      let last := if invert then 1 / l else l
      let prev := if invert then 1 / p else p
      if prev = 0 then Option.none
      else Option.some ((last - prev) / prev * 100)
  | _, _ => Option.none

/-- Embedding of `TokensService.zigChangeFromUsdcPool`
(`src/api/tokens/tokens.service.ts:175`): same falsy guard, then the
percentage change of the inverted closes. -/
def zigChangeFromUsdcPool (lastRaw prevRaw : Option ℚ) : Option ℚ :=
  match lastRaw, prevRaw with
  | Option.some l, Option.some p =>
    if l = 0 ∨ p = 0 then Option.none
    else Option.some ((1 / l - 1 / p) / (1 / p) * 100)
  | _, _ => Option.none

/-- C10: the per-bucket price change is non-null only when both closes are
present and nonzero; an absent or exactly-zero close yields null in both
change computations (so the division is never by zero), and a collapsed
price is never reported as −100%. -/
theorem changePct_guards (lastRaw prevRaw : Option ℚ) (invert : Bool) :
    (∀ c, changePctForMinutes lastRaw prevRaw invert = Option.some c →
      ∃ l p, lastRaw = Option.some l ∧ l ≠ 0 ∧ prevRaw = Option.some p ∧ p ≠ 0) ∧
    ((lastRaw = Option.none ∨ lastRaw = Option.some 0 ∨
      prevRaw = Option.none ∨ prevRaw = Option.some 0) →
      changePctForMinutes lastRaw prevRaw invert = Option.none ∧
      zigChangeFromUsdcPool lastRaw prevRaw = Option.none) ∧
    (∀ c, changePctForMinutes lastRaw prevRaw invert = Option.some c → c ≠ -100) ∧
    (∀ c, zigChangeFromUsdcPool lastRaw prevRaw = Option.some c → c ≠ -100) := by
  refine ⟨?_, ?_, ?_, ?_⟩
  · intro c hc
    match lastRaw, prevRaw with
    | Option.none, _ => exact absurd hc (by simp [changePctForMinutes])
    | Option.some l, Option.none => exact absurd hc (by simp [changePctForMinutes])
    | Option.some l, Option.some p =>
      refine ⟨l, p, rfl, ?_, rfl, ?_⟩ <;>
      · intro h0
        subst h0
        simp [changePctForMinutes] at hc
  · rintro (rfl | rfl | rfl | rfl)
    · exact ⟨rfl, rfl⟩
    · cases prevRaw <;> exact ⟨rfl, rfl⟩
    · cases lastRaw <;> exact ⟨rfl, rfl⟩
    · cases lastRaw with
      | none => exact ⟨rfl, rfl⟩
      | some l =>
        constructor <;> simp [changePctForMinutes, zigChangeFromUsdcPool]
  · intro c hc hneg
    match lastRaw, prevRaw with
    | Option.none, _ => exact absurd hc (by simp [changePctForMinutes])
    | Option.some l, Option.none => exact absurd hc (by simp [changePctForMinutes])
    | Option.some l, Option.some p =>
      by_cases h0 : l = 0 ∨ p = 0
      · rw [changePctForMinutes] at hc
        simp [if_pos h0] at hc
      · push_neg at h0
        obtain ⟨hl, hp⟩ := h0
        rw [changePctForMinutes] at hc
        rw [if_neg (by tauto)] at hc
        set last := if invert then 1 / l else l with hlast
        set prev := if invert then 1 / p else p with hprev
        have hlast0 : last ≠ 0 := by
          rw [hlast]; cases invert <;> simp [hl, hp]
        by_cases hprev0 : prev = 0
        · rw [if_pos hprev0] at hc
          exact Option.noConfusion hc
        · rw [if_neg hprev0] at hc
          have hceq : c = (last - prev) / prev * 100 := (Option.some.injEq _ _).mp hc.symm
          rw [hneg] at hceq
          have : last = 0 := by
            field_simp at hceq
            linarith
          exact hlast0 this
  · intro c hc hneg
    match lastRaw, prevRaw with
    | Option.none, _ => exact absurd hc (by simp [zigChangeFromUsdcPool])
    | Option.some l, Option.none => exact absurd hc (by simp [zigChangeFromUsdcPool])
    | Option.some l, Option.some p =>
      by_cases h0 : l = 0 ∨ p = 0
      · rw [zigChangeFromUsdcPool] at hc
        simp [if_pos h0] at hc
      · push_neg at h0
        obtain ⟨hl, hp⟩ := h0
        rw [zigChangeFromUsdcPool] at hc
        rw [if_neg (by tauto)] at hc
        have hceq : c = (1 / l - 1 / p) / (1 / p) * 100 := (Option.some.injEq _ _).mp hc.symm
        rw [hneg] at hceq
        have hpp : 0 < p * p := mul_self_pos.mpr hp
        field_simp at hceq
        nlinarith [hceq, hpp]

/-- Witness for C10: a zero last close yields a null change in both
computations. -/
theorem changePct_guards_witness :
    changePctForMinutes (Option.some 0) (Option.some 1) false = Option.none ∧
    zigChangeFromUsdcPool (Option.some 0) (Option.some 1) = Option.none :=
  (changePct_guards (Option.some 0) (Option.some 1) false).2.1 (Or.inr (Or.inl rfl))

end Degenter

namespace Degenter

/-- A row of the `tokens` table as consumed by the resolver. -/
structure Token where
  token_id : ℕ
  denom : String
  symbol : Option String
  name : Option String
  deriving Repr, DecidableEq

/-- Scan of a SQL `%` wildcard: try the rest of the pattern at every
suffix of the text. -/
def likeScan (f : List Char → Bool) : List Char → Bool
  | [] => f []
  | c :: ts => f (c :: ts) || likeScan f ts

/-- SQL `LIKE` pattern matching (`%` any run, `_` any one character,
backslash escapes the next pattern character); `ILIKE` is obtained by
lowering both sides first. -/
def likeMatch : List Char → List Char → Bool
  | [], t => t.isEmpty
  | '%' :: ps, t => likeScan (likeMatch ps) t
  | '\\' :: pc :: ps, t =>
    match t with
    | c :: ts => pc == c && likeMatch ps ts
    | [] => false
  | '_' :: ps, t =>
    match t with
    | _ :: ts => likeMatch ps ts
    | [] => false
  | p :: ps, t =>
    match t with
    | c :: ts => p == c && likeMatch ps ts
    | [] => false

/-- The resolver's `WHERE` clause (`src/api/tokens/tokens.service.ts:27`):
denom exact or case-insensitive, symbol exact or case-insensitive, name
`ILIKE` the identifier, or the token id rendered as text; SQL `NULL`
comparisons are never true. -/
def matchesQuery (q : String) (t : Token) : Bool :=
  decide (t.denom = q) || decide (lowerStr t.denom = lowerStr q) ||
  (match t.symbol with
   | Option.some s => decide (s = q) || decide (lowerStr s = lowerStr q)
   | Option.none => false) ||
  (match t.name with
   | Option.some n => likeMatch (lowerStr q) (lowerStr n)
   | Option.none => false) ||
  decide (toString t.token_id = q)

/-- The resolver's `ORDER BY` keys (`src/api/tokens/tokens.service.ts:33`):
case-sensitive denom match first, then case-insensitive denom, then
case-insensitive symbol; name and id matches get no key of their own. -/
def rankKey (q : String) (t : Token) : ℕ × ℕ × ℕ :=
  ((if t.denom = q then 0 else 1),
   (if lowerStr t.denom = lowerStr q then 0 else 1),
   (match t.symbol with
    | Option.some s => if lowerStr s = lowerStr q then 0 else 1
    | Option.none => 1))

/-- Strict sort order of the resolver's `ORDER BY ... , token_id DESC`. -/
abbrev keyLt (q : String) (a b : Token) : Prop :=
  (rankKey q a).1 < (rankKey q b).1 ∨
  ((rankKey q a).1 = (rankKey q b).1 ∧
    ((rankKey q a).2.1 < (rankKey q b).2.1 ∨
     ((rankKey q a).2.1 = (rankKey q b).2.1 ∧
      ((rankKey q a).2.2 < (rankKey q b).2.2 ∨
       ((rankKey q a).2.2 = (rankKey q b).2.2 ∧ b.token_id < a.token_id)))))

/-- Selection of the least row under `keyLt` (the `ORDER BY ... LIMIT 1`). -/
def resolveGo (q : String) : List Token → Option Token
  | [] => Option.none
  | t :: ts =>
    match resolveGo q ts with
    | Option.none => Option.some t
    | Option.some b => if keyLt q t b then Option.some t else Option.some b

/-- Embedding of `TokensService.resolveTokenId`
(`src/api/tokens/tokens.service.ts:15`) over the token table as a list. -/
def resolveTokenId (tokens : List Token) (q : String) : Option Token :=
  resolveGo q (tokens.filter (matchesQuery q))

/-- Whether the first list is a leading segment of the second. -/
def isLeadOf : List Char → List Char → Bool
  | [], _ => true
  | _ :: _, [] => false
  | p :: ps, c :: ts => p == c && isLeadOf ps ts

/-- Whether the first list occurs contiguously inside the second. -/
def isPartOf (pat : List Char) : List Char → Bool
  | [] => isLeadOf pat []
  | c :: ts => isLeadOf pat (c :: ts) || isPartOf pat ts

/-- Modelled from the claim's words: match categories ranked denom (exact,
case-insensitive) over symbol (exact, case-insensitive) over name
(substring, case-insensitive) over numeric id (string equality); rank 4
marks a non-match. -/
def specRank (q : String) (t : Token) : ℕ :=
  if lowerStr t.denom = lowerStr q then 0
  else if (match t.symbol with
           | Option.some s => decide (lowerStr s = lowerStr q)
           | Option.none => false) then 1
  else if (match t.name with
           | Option.some n => isPartOf (lowerStr q) (lowerStr n)
           | Option.none => false) then 2
  else if toString t.token_id = q then 3
  else 4

/-- Strict order of the claim's precedence, ties by highest token id. -/
abbrev specLt (q : String) (a b : Token) : Prop :=
  specRank q a < specRank q b ∨ (specRank q a = specRank q b ∧ b.token_id < a.token_id)

/-- Selection of the least row under the claim's precedence. -/
def resolveSpecGo (q : String) : List Token → Option Token
  | [] => Option.none
  | t :: ts =>
    match resolveSpecGo q ts with
    | Option.none => Option.some t
    | Option.some b => if specLt q t b then Option.some t else Option.some b

/-- The resolver the claim describes, built from its words. -/
def resolveTokenSpec (tokens : List Token) (q : String) : Option Token :=
  resolveSpecGo q (tokens.filter (fun t => specRank q t < 4))

end Degenter

namespace Degenter

/-- `keyLt` is irreflexive. -/
theorem keyLt_irrefl (q : String) (a : Token) : ¬ keyLt q a a := by
  unfold keyLt
  omega

/-- `keyLt` is transitive. -/
theorem keyLt_trans (q : String) (a b c : Token)
    (h1 : keyLt q a b) (h2 : keyLt q b c) : keyLt q a c := by
  unfold keyLt at *
  omega

/-- The least-row selection returns nothing only on an empty candidate
list. -/
theorem resolveGo_eq_none (q : String) (l : List Token) :
    resolveGo q l = Option.none ↔ l = [] := by
  cases l with
  | nil => simp [resolveGo]
  | cons t ts =>
    simp only [resolveGo]
    cases resolveGo q ts with
    | none => simp
    | some b =>
      constructor
      · intro hc
        change (if keyLt q t b then Option.some t else Option.some b) = Option.none at hc
        by_cases hk : keyLt q t b
        · rw [if_pos hk] at hc
          exact Option.noConfusion hc
        · rw [if_neg hk] at hc
          exact Option.noConfusion hc
      · intro hc
        exact absurd hc (List.cons_ne_nil t ts)

/-- The least-row selection returns a member no candidate strictly
precedes. -/
theorem resolveGo_min (q : String) (l : List Token) (t : Token)
    (h : resolveGo q l = Option.some t) :
    t ∈ l ∧ ∀ u ∈ l, ¬ keyLt q u t := by
  induction l generalizing t with
  | nil => simp [resolveGo] at h
  | cons a ts ih =>
    rw [resolveGo] at h
    cases hgo : resolveGo q ts with
    | none =>
      rw [hgo] at h
      obtain rfl : a = t := by simpa using h
      have hts : ts = [] := (resolveGo_eq_none q ts).mp hgo
      subst hts
      exact ⟨by simp, by simp [keyLt_irrefl q a]⟩
    | some b =>
      rw [hgo] at h
      change (if keyLt q a b then Option.some a else Option.some b) = Option.some t at h
      obtain ⟨hbmem, hbmin⟩ := ih b hgo
      by_cases hab : keyLt q a b
      · rw [if_pos hab] at h
        obtain rfl : a = t := by simpa using h
        refine ⟨by simp, ?_⟩
        intro u hu hua
        rcases List.mem_cons.mp hu with rfl | hu
        · exact keyLt_irrefl q u hua
        · exact hbmin u hu (keyLt_trans q u a b hua hab)
      · rw [if_neg hab] at h
        obtain rfl : b = t := by simpa using h
        refine ⟨List.mem_cons_of_mem a hbmem, ?_⟩
        intro u hu hub
        rcases List.mem_cons.mp hu with rfl | hu
        · exact hab hub
        · exact hbmin u hu hub

/-- C7 (amended): the resolver returns a not-found signal exactly when no
row satisfies the `WHERE` clause; otherwise it returns a matching row that
is minimal under the code's actual order: case-sensitive denom match, then
case-insensitive denom, then case-insensitive symbol, with name-pattern
and id matches carrying no rank of their own and all remaining ties broken
by the highest token id. -/
theorem resolveTokenId_charact (tokens : List Token) (q : String) :
    (resolveTokenId tokens q = Option.none ↔ ∀ t ∈ tokens, matchesQuery q t = false) ∧
    (∀ t, resolveTokenId tokens q = Option.some t →
      t ∈ tokens ∧ matchesQuery q t = true ∧
      ∀ u ∈ tokens, matchesQuery q u = true → ¬ keyLt q u t) := by
  constructor
  · rw [resolveTokenId, resolveGo_eq_none]
    simp
  · intro t ht
    obtain ⟨hmem, hmin⟩ := resolveGo_min q _ t ht
    have hm := List.mem_filter.mp hmem
    refine ⟨hm.1, hm.2, ?_⟩
    intro u hu hq
    exact hmin u (List.mem_filter.mpr ⟨hu, hq⟩)

/-- Counterexample to C7 as stated: with identifier `"5"`, a token matched
only by name (token id 1, name `"5"`) and a token matched only by numeric
id (token id 5) carry the same `ORDER BY` keys, so the higher token id
wins: the code returns token 5 while the claim's name-over-id precedence
returns token 1. -/
theorem resolveTokenId_precedence_counterexample :
    resolveTokenId
        [⟨1, "aaa", Option.none, Option.some "5"⟩,
         ⟨5, "bbb", Option.none, Option.none⟩] "5" =
      Option.some ⟨5, "bbb", Option.none, Option.none⟩ ∧
    resolveTokenSpec
        [⟨1, "aaa", Option.none, Option.some "5"⟩,
         ⟨5, "bbb", Option.none, Option.none⟩] "5" =
      Option.some ⟨1, "aaa", Option.none, Option.some "5"⟩ := by
  constructor <;> rfl

/-- Witness for C7's amended theorem at the concrete two-token table. -/
theorem resolveTokenId_charact_witness :
    (⟨5, "bbb", Option.none, Option.none⟩ : Token) ∈
      [(⟨1, "aaa", Option.none, Option.some "5"⟩ : Token),
       ⟨5, "bbb", Option.none, Option.none⟩] ∧
    matchesQuery "5" ⟨5, "bbb", Option.none, Option.none⟩ = true :=
  have h := (resolveTokenId_charact
    [⟨1, "aaa", Option.none, Option.some "5"⟩,
     ⟨5, "bbb", Option.none, Option.none⟩] "5").2
    ⟨5, "bbb", Option.none, Option.none⟩ (by rfl)
  ⟨h.1, h.2.1⟩

end Degenter

namespace Degenter

/-- A per-bucket aggregate row as produced by the SQL grouping (the `bySec`
map values): first open, max high, min low, last close, summed volume and
trade count. -/
structure RawBar where
  open_ : ℚ
  high : ℚ
  low : ℚ
  close : ℚ
  volume : ℚ
  trades : ℚ
  deriving Repr, DecidableEq

/-- The gap-fill policy (`fill` query parameter). -/
inductive Fill
  | prev
  | zero
  | none
  deriving Repr, DecidableEq

/-- Continuity adjustment of a real bucket
(`src/api/tokens/tokens.service.ts:1669`): override the open with the
carried previous close when one exists and widen high/low around it. -/
def stepBar (prevClose : Option ℚ) (ts : ℤ) (r : RawBar) : Bar :=
  let openAdj := prevClose.getD r.open_
  ⟨ts, openAdj, max r.high openAdj, min r.low openAdj, r.close, r.volume, r.trades⟩

/-- What an empty bucket emits (`src/api/tokens/tokens.service.ts:1675`):
under `prev` fill, a flat bar at the carried close (nothing before the
first close is known, leaving the carry unchanged); under `zero` fill, an
all-zero bar that resets the carried close to 0; under `none` fill,
nothing. Returns the emitted bar and the new carried close. -/
def emptyBucket (fill : Fill) (prevClose : Option ℚ) (ts : ℤ) :
    Option (Bar × Option ℚ) :=
  match fill with
  | Fill.prev =>
    match prevClose with
    | Option.some pc => Option.some (⟨ts, pc, pc, pc, pc, 0, 0⟩, prevClose)
    | Option.none => Option.none
  | Fill.zero => Option.some (⟨ts, 0, 0, 0, 0, 0, 0⟩, Option.some 0)
  | Fill.none => Option.none

/-- The emission loop over bucket timestamps
(`src/api/tokens/tokens.service.ts:1666`, `:1417`): a real bucket emits its
adjusted bar and carries its close; an empty bucket emits per
`emptyBucket`. -/
def fillLoop (bySec : ℤ → Option RawBar) (fill : Fill) :
    List ℤ → Option ℚ → List Bar
  | [], _ => []
  | ts :: rest, prevClose =>
    match bySec ts with
    | Option.some r =>
      let b := stepBar prevClose ts r
      b :: fillLoop bySec fill rest (Option.some b.close)
    | Option.none =>
      match emptyBucket fill prevClose ts with
      | Option.some (b, p2) => b :: fillLoop bySec fill rest p2
      | Option.none => fillLoop bySec fill rest prevClose

/-- `Math.floor(epochSeconds / step) * step` alignment. -/
def alignDown (t step : ℤ) : ℤ := t.fdiv step * step

/-- The iterated bucket timestamps of
`for (let ts = start; ts <= end; ts += step)` for a positive step. -/
def bucketTimes (start end_ step : ℤ) : List ℤ :=
  if 0 < step ∧ start ≤ end_ then
    (List.range (((end_ - start) / step).toNat + 1)).map (fun i : ℕ => start + step * (i : ℤ))
  else []

/-- The OHLCV emission stage of `TokensService.ohlcvAdvanced` /
`ohlcvUzigFromUsdc` (`src/api/tokens/tokens.service.ts:1648`, `:1338`):
both range endpoints are floored to the step boundary, the buckets are
iterated inclusively, and the previous-close seed is used only under
`prev` fill. -/
def ohlcvSeries (bySec : ℤ → Option RawBar) (fill : Fill) (seedPrevClose : Option ℚ)
    (fromSec toSec step : ℤ) : List Bar :=
  let start := alignDown fromSec step
  let endAligned := alignDown toSec step
  let prevClose0 := if fill = Fill.prev then seedPrevClose else Option.none
  fillLoop bySec fill (bucketTimes start endAligned step) prevClose0

/-- A single-bucket source: one bar (constant 5) in the bucket starting at
epoch 0, nothing elsewhere. -/
def bySecGap : ℤ → Option RawBar :=
  fun t => if t = 0 then Option.some ⟨5, 5, 5, 5, 1, 1⟩ else Option.none

end Degenter

namespace Degenter

/-- Flooring to the step boundary fixes multiples of the step. -/
theorem alignDown_of_dvd (t step : ℤ) (hstep : step ≠ 0) (h : step ∣ t) :
    alignDown t step = t := by
  obtain ⟨k, rfl⟩ := h
  rw [alignDown, Int.mul_fdiv_cancel_left _ hstep]
  ring

/-- The iterated buckets of an aligned `[T, T + N*step]` range are exactly
`T, T+step, ..., T+N*step`. -/
theorem bucketTimes_grid (T step : ℤ) (N : ℕ) (hstep : 0 < step) :
    bucketTimes T (T + step * N) step =
      (List.range (N + 1)).map (fun i : ℕ => T + step * (i : ℤ)) := by
  have hnn : (0:ℤ) ≤ step * N := mul_nonneg (le_of_lt hstep) (Int.natCast_nonneg N)
  rw [bucketTimes, if_pos ⟨hstep, by linarith⟩]
  congr 2
  rw [show T + step * (N:ℤ) - T = step * N by ring]
  rw [Int.mul_ediv_cancel_left _ (ne_of_gt hstep)]
  simp

/-- Once a previous close is carried (or from any state under `zero`
fill), every remaining bucket emits exactly one bar. -/
theorem fillLoop_length_primed (bySec : ℤ → Option RawBar) (fill : Fill)
    (hfill : fill ≠ Fill.none) :
    ∀ (tss : List ℤ) (p : ℚ),
      (fillLoop bySec fill tss (Option.some p)).length = tss.length := by
  intro tss
  induction tss with
  | nil => intro p; rfl
  | cons ts rest ih =>
    intro p
    rw [fillLoop]
    cases hb : bySec ts with
    | some r => simp [ih]
    | none =>
      cases fill with
      | prev => simp [emptyBucket, ih]
      | zero => simp [emptyBucket, ih]
      | none => exact absurd rfl hfill

/-- Every emitted bar's timestamp is one of the iterated bucket
timestamps. -/
theorem fillLoop_ts_mem (bySec : ℤ → Option RawBar) (fill : Fill) :
    ∀ (tss : List ℤ) (p : Option ℚ) (b : Bar),
      b ∈ fillLoop bySec fill tss p → b.ts ∈ tss := by
  intro tss
  induction tss with
  | nil => intro p b h; simp [fillLoop] at h
  | cons ts rest ih =>
    intro p b h
    rw [fillLoop] at h
    cases hb : bySec ts with
    | some r =>
      rw [hb] at h
      rcases List.mem_cons.mp h with rfl | h2
      · exact List.mem_cons_self _ _
      · exact List.mem_cons_of_mem _ (ih _ b h2)
    | none =>
      rw [hb] at h
      cases hemp : emptyBucket fill p ts with
      | none =>
        rw [hemp] at h
        exact List.mem_cons_of_mem _ (ih _ b h)
      | some bp =>
        rw [hemp] at h
        obtain ⟨b2, p2⟩ := bp
        rcases List.mem_cons.mp h with rfl | h2
        · have : b.ts = ts := by
            cases fill with
            | prev =>
              cases p with
              | some pc =>
                simp only [emptyBucket] at hemp
                obtain ⟨rfl, rfl⟩ := Prod.mk.injEq .. ▸ (Option.some.injEq _ _).mp hemp
                rfl
              | none => simp [emptyBucket] at hemp
            | zero =>
              simp only [emptyBucket] at hemp
              obtain ⟨rfl, rfl⟩ := Prod.mk.injEq .. ▸ (Option.some.injEq _ _).mp hemp
              rfl
            | none => simp [emptyBucket] at hemp
          rw [this]
          exact List.mem_cons_self _ _
        · exact List.mem_cons_of_mem _ (ih _ b h2)

end Degenter

namespace Degenter

/-- C4 (amended): for a request over `[T, T+N*step)` with `T` on a step
boundary, a source bar in every bucket of the range and a fill other than
`none`, the emission produces exactly `N + 1` bars — flooring both
endpoints and iterating the aligned range inclusively appends one extra
filled bucket at the aligned right endpoint — and every emitted bar's
timestamp is a multiple of `step`. -/
theorem ohlcv_bucket_count (bySec : ℤ → Option RawBar) (fill : Fill)
    (seed : Option ℚ) (T step : ℤ) (N : ℕ)
    (hstep : 0 < step) (hT : step ∣ T) (hN : 1 ≤ N) (hfill : fill ≠ Fill.none)
    (hsrc : ∀ i : ℕ, i < N → bySec (T + step * i) ≠ Option.none) :
    (ohlcvSeries bySec fill seed T (T + step * N) step).length = N + 1 ∧
    ∀ b ∈ ohlcvSeries bySec fill seed T (T + step * N) step, step ∣ b.ts := by
  have hT2 : step ∣ T + step * N := dvd_add hT (dvd_mul_right step N)
  have halign1 : alignDown T step = T := alignDown_of_dvd T step (ne_of_gt hstep) hT
  have halign2 : alignDown (T + step * N) step = T + step * N :=
    alignDown_of_dvd _ step (ne_of_gt hstep) hT2
  have hseries : ohlcvSeries bySec fill seed T (T + step * N) step =
      fillLoop bySec fill ((List.range (N + 1)).map (fun i : ℕ => T + step * (i : ℤ)))
        (if fill = Fill.prev then seed else Option.none) := by
    rw [ohlcvSeries]
    rw [halign1, halign2, bucketTimes_grid T step N hstep]
  have hgrid : (List.range (N + 1)).map (fun i : ℕ => T + step * (i : ℤ)) =
      (T + step * ((0:ℕ) : ℤ)) ::
        ((List.range N).map (fun i : ℕ => T + step * (((i + 1 : ℕ)) : ℤ))) := by
    rw [List.range_succ_eq_map, List.map_cons, List.map_map]
    rfl
  constructor
  · rw [hseries, hgrid]
    obtain ⟨r, hr⟩ : ∃ r, bySec (T + step * ((0:ℕ) : ℤ)) = Option.some r := by
      cases hb : bySec (T + step * ((0:ℕ) : ℤ)) with
      | none => exact absurd hb (hsrc 0 (by omega))
      | some r => exact ⟨r, rfl⟩
    rw [fillLoop, hr]
    simp only [List.length_cons, List.length_map, List.length_range]
    rw [fillLoop_length_primed bySec fill hfill]
    simp
  · intro b hb
    rw [hseries] at hb
    have hmem := fillLoop_ts_mem bySec fill _ _ b hb
    obtain ⟨i, _, hi⟩ := List.mem_map.mp hmem
    rw [← hi]
    exact dvd_add hT (dvd_mul_right step i)

/-- Counterexample to C4 as stated: the aligned range `[0, 60)` with step
60 holds exactly `N = 1` bucket and a source bar sits in it, yet the
inclusive loop emits 2 bars under `zero` fill (the aligned right endpoint
is iterated too), not 1. -/
theorem ohlcv_bucket_count_counterexample :
    (ohlcvSeries bySecGap Fill.zero Option.none 0 60 60).length = 2 ∧
    ¬ ((ohlcvSeries bySecGap Fill.zero Option.none 0 60 60).length = 1) := by
  refine ⟨rfl, ?_⟩
  intro h
  rw [show (ohlcvSeries bySecGap Fill.zero Option.none 0 60 60).length = 2 from rfl] at h
  omega

/-- Witness for C4's amended theorem on the single-bucket source. -/
theorem ohlcv_bucket_count_witness :
    (ohlcvSeries bySecGap Fill.zero Option.none 0 (0 + 60 * ((1:ℕ) : ℤ)) 60).length = 1 + 1 :=
  (ohlcv_bucket_count bySecGap Fill.zero Option.none 0 60 1
    (by norm_num) (dvd_zero 60) le_rfl (by intro h; exact Fill.noConfusion h)
    (fun i hi => by
      interval_cases i
      intro h
      rw [show bySecGap (0 + 60 * ((0:ℕ) : ℤ)) = Option.some ⟨5, 5, 5, 5, 1, 1⟩ from rfl] at h
      exact Option.noConfusion h)).1

end Degenter

namespace Degenter

/-- Adjacency relation the emitted series actually satisfies: the later
bar's open equals the earlier bar's close, unless the later bar is a
zero-filled empty bucket (all OHLC fields 0). -/
def contOk (bySec : ℤ → Option RawBar) (fill : Fill) (b b2 : Bar) : Prop :=
  b2.open_ = b.close ∨
  (fill = Fill.zero ∧ bySec b2.ts = Option.none ∧
    b2.open_ = 0 ∧ b2.high = 0 ∧ b2.low = 0 ∧ b2.close = 0)

/-- The first bar emitted from a carried close `c` opens at `c`, unless it
is a zero-filled bar. -/
theorem fillLoop_head_open (bySec : ℤ → Option RawBar) (fill : Fill) :
    ∀ (tss : List ℤ) (c : ℚ) (b2 : Bar),
      (fillLoop bySec fill tss (Option.some c)).head? = Option.some b2 →
      b2.open_ = c ∨
        (fill = Fill.zero ∧ bySec b2.ts = Option.none ∧
          b2.open_ = 0 ∧ b2.high = 0 ∧ b2.low = 0 ∧ b2.close = 0) := by
  intro tss
  induction tss with
  | nil => intro c b2 h; simp [fillLoop] at h
  | cons ts rest ih =>
    intro c b2 h
    rw [fillLoop] at h
    cases hb : bySec ts with
    | some r =>
      rw [hb] at h
      have heq : stepBar (Option.some c) ts r = b2 := by simpa using h
      left
      rw [← heq]
      rfl
    | none =>
      rw [hb] at h
      cases fill with
      | prev =>
        simp only [emptyBucket] at h
        have heq : (⟨ts, c, c, c, c, 0, 0⟩ : Bar) = b2 := by simpa using h
        left
        rw [← heq]
      | zero =>
        simp only [emptyBucket] at h
        have heq : (⟨ts, 0, 0, 0, 0, 0, 0⟩ : Bar) = b2 := by simpa using h
        right
        rw [← heq]
        exact ⟨rfl, hb, rfl, rfl, rfl, rfl⟩
      | none =>
        simp only [emptyBucket] at h
        exact ih c b2 h

/-- The emitted series is chained under `contOk`, from any starting
state. -/
theorem fillLoop_chain (bySec : ℤ → Option RawBar) (fill : Fill) :
    ∀ (tss : List ℤ) (p : Option ℚ),
      List.Chain' (contOk bySec fill) (fillLoop bySec fill tss p) := by
  intro tss
  induction tss with
  | nil => intro p; rw [fillLoop]; exact List.chain'_nil
  | cons ts rest ih =>
    intro p
    rw [fillLoop]
    cases hb : bySec ts with
    | some r =>
      refine List.chain'_cons'.mpr ⟨?_, ih _⟩
      intro b2 hb2
      have := fillLoop_head_open bySec fill rest (stepBar p ts r).close b2 hb2
      rcases this with h1 | h2
      · exact Or.inl h1
      · exact Or.inr h2
    | none =>
      cases fill with
      | prev =>
        cases p with
        | some pc =>
          simp only [emptyBucket]
          refine List.chain'_cons'.mpr ⟨?_, ih _⟩
          intro b2 hb2
          have := fillLoop_head_open bySec Fill.prev rest pc b2 hb2
          rcases this with h1 | h2
          · exact Or.inl h1
          · exact Or.inr h2
        | none =>
          simp only [emptyBucket]
          exact ih _
      | zero =>
        simp only [emptyBucket]
        refine List.chain'_cons'.mpr ⟨?_, ih _⟩
        intro b2 hb2
        have := fillLoop_head_open bySec Fill.zero rest 0 b2 hb2
        rcases this with h1 | h2
        · exact Or.inl h1
        · exact Or.inr h2
      | none =>
        simp only [emptyBucket]
        exact ih _

/-- Every emitted bar keeps `low ≤ open ≤ high` (real buckets widen
high/low around the overridden open; filled bars are flat or zero). -/
theorem fillLoop_bounds (bySec : ℤ → Option RawBar) (fill : Fill) :
    ∀ (tss : List ℤ) (p : Option ℚ) (b : Bar), b ∈ fillLoop bySec fill tss p →
      b.low ≤ b.open_ ∧ b.open_ ≤ b.high := by
  intro tss
  induction tss with
  | nil => intro p b h; simp [fillLoop] at h
  | cons ts rest ih =>
    intro p b h
    rw [fillLoop] at h
    cases hb : bySec ts with
    | some r =>
      rw [hb] at h
      rcases List.mem_cons.mp h with rfl | h2
      · exact ⟨min_le_right _ _, le_max_right _ _⟩
      · exact ih _ b h2
    | none =>
      rw [hb] at h
      cases fill with
      | prev =>
        cases p with
        | some pc =>
          simp only [emptyBucket] at h
          rcases List.mem_cons.mp h with rfl | h2
          · exact ⟨le_refl _, le_refl _⟩
          · exact ih _ b h2
        | none =>
          simp only [emptyBucket] at h
          exact ih _ b h
      | zero =>
        simp only [emptyBucket] at h
        rcases List.mem_cons.mp h with rfl | h2
        · exact ⟨le_refl _, le_refl _⟩
        · exact ih _ b h2
      | none =>
        simp only [emptyBucket] at h
        exact ih _ b h

/-- C5 (amended): in every emitted series, each pair of adjacent bars
satisfies `bar[i+1].open = bar[i].close`, except that a zero-filled empty
bucket instead emits all-zero OHLC fields (its close, 0, then carries into
the next bar's open); every bar satisfies `low ≤ open ≤ high`, the real
buckets having their open overridden to the carried close with high/low
widened. -/
theorem ohlcv_continuity (bySec : ℤ → Option RawBar) (fill : Fill) (seed : Option ℚ)
    (fromSec toSec step : ℤ) :
    List.Chain' (contOk bySec fill) (ohlcvSeries bySec fill seed fromSec toSec step) ∧
    ∀ b ∈ ohlcvSeries bySec fill seed fromSec toSec step,
      b.low ≤ b.open_ ∧ b.open_ ≤ b.high := by
  constructor
  · exact fillLoop_chain bySec fill _ _
  · intro b hb
    exact fillLoop_bounds bySec fill _ _ b hb

/-- Counterexample to C5 as stated: over buckets `[0, 60]` with `zero`
fill, the first (real) bar closes at 5 — so a previous close is defined at
the second bucket — yet the zero-filled second bar opens at 0, not 5. -/
theorem ohlcv_continuity_counterexample :
    ((ohlcvSeries bySecGap Fill.zero Option.none 0 60 60).map Bar.close)[0]? =
      Option.some 5 ∧
    ((ohlcvSeries bySecGap Fill.zero Option.none 0 60 60).map Bar.open_)[1]? =
      Option.some 0 ∧
    ¬ (((ohlcvSeries bySecGap Fill.zero Option.none 0 60 60).map Bar.open_)[1]? =
       ((ohlcvSeries bySecGap Fill.zero Option.none 0 60 60).map Bar.close)[0]?) := by
  refine ⟨rfl, rfl, ?_⟩
  intro h
  rw [show ((ohlcvSeries bySecGap Fill.zero Option.none 0 60 60).map Bar.open_)[1]? =
        Option.some 0 from rfl,
      show ((ohlcvSeries bySecGap Fill.zero Option.none 0 60 60).map Bar.close)[0]? =
        Option.some 5 from rfl] at h
  have h5 : (0:ℚ) = 5 := (Option.some.injEq _ _).mp h
  norm_num at h5

end Degenter
